import Mathlib

/-!
Verification development for the PR-agent MCP server (`server.py`).

The file shallowly embeds the three core components of the server:

* the GitHub Actions event aggregation (`get_workflow_status`,
  `get_recent_actions_events`, lines 280-335 of `server.py`),
* the git change collection (`_get_git_changes`, lines 549-610),
* the PR template selection (`suggest_template` / `get_pr_templates`,
  lines 141-183).

Python strings are modelled as Lean `String`; Python string comparison
(`<`, `>`) is lexicographic by code point on both sides.  Python dicts
keyed by `workflow_id` are modelled as association lists that preserve
insertion order (a new key is appended, an updated key keeps its
position), which is exactly the CPython dict behaviour the code relies
on.
-/

set_option autoImplicit false

namespace PrAgent

/-! ## Event aggregation data model (server.py lines 296-335) -/

/-- The nested `workflow_run` record of an incoming event.  Each field is
`Option`al because the Python code reads it with `dict.get`, which yields
`None` for a missing key.  `workflow_id` is the opaque numeric identifier. -/
structure WorkflowRun where
  workflow_id : Option Int
  name : Option String
  status : Option String
  conclusion : Option String
  html_url : Option String
  created_at : Option String
deriving DecidableEq

/-- An incoming GitHub Actions event: `event.get("event_type")` and the
nested `event.get("workflow_run", {})` record (a missing nested record is
the all-`none` `WorkflowRun`). -/
structure Event where
  event_type : Option String
  workflow_run : WorkflowRun
deriving DecidableEq

/-- One derived status entry, the dict built at lines 324-330 of
`server.py`: `{name, status, conclusion, url, created_at}`. -/
structure WorkflowStatus where
  name : String
  status : Option String
  conclusion : Option String
  url : Option String
  created_at : String
deriving DecidableEq

/-- Lexicographic comparison of code-point lists, the order Python uses
for `str < str`.  This is a structural (kernel-reducible) restatement of
the core `List.lt` on `List Char`. -/
def ltChars : List Char → List Char → Bool
  | _, [] => false
  | [], _ :: _ => true
  | a :: as, b :: bs => if a < b then true else if b < a then false else ltChars as bs

/-- Python string `<` (lexicographic by code point). -/
def strLt (a b : String) : Bool := ltChars a.data b.data

/-- Python string `<=`: the negation of the reversed strict comparison. -/
def strLe (a b : String) : Bool := !strLt b a

/-- Python `str.lower()` restricted to ASCII case mapping, applied
code point by code point. -/
def pyLower (s : String) : String := ⟨s.data.map Char.toLower⟩

/-- The name-filter test of lines 319-321: the event is *kept* unless the
filter is truthy (present and non-empty) and its lowercasing differs from
the lowercased event name. -/
def passesFilter (filter : Option String) (nm : String) : Bool :=
  match filter with
  | none => true
  | some f => f == "" || pyLower f == pyLower nm

/-- Lines 308-321 of `get_workflow_status`: the contribution of a single
event.  Returns `some (workflow_id, entry)` when the event has
`event_type == "workflow_run"`, truthy `workflow_id`, `name` and
`created_at` (Python truthiness: non-zero, non-empty), and passes the
optional name filter; `none` when the event is skipped. -/
def candidate (filter : Option String) (e : Event) : Option (Int × WorkflowStatus) :=
  if e.event_type == some "workflow_run" then
    match e.workflow_run.workflow_id, e.workflow_run.name, e.workflow_run.created_at with
    | some wid, some nm, some ca =>
      if wid ≠ 0 ∧ nm ≠ "" ∧ ca ≠ "" then
        if passesFilter filter nm then
          some (wid, { name := nm
                       status := e.workflow_run.status
                       conclusion := e.workflow_run.conclusion
                       url := e.workflow_run.html_url
                       created_at := ca })
        else none
      else none
    | _, _, _ => none
  else none

/-- Lookup in the insertion-ordered association list modelling the
`workflow_statuses` dict. -/
def lookupA : List (Int × WorkflowStatus) → Int → Option WorkflowStatus
  | [], _ => none
  | (k, v) :: rest, wid => if k = wid then some v else lookupA rest wid

/-- In-place value replacement for an existing key, keeping the key's
position: CPython dict assignment on a present key. -/
def replaceA : List (Int × WorkflowStatus) → Int → WorkflowStatus → List (Int × WorkflowStatus)
  | [], _, _ => []
  | (k, v) :: rest, wid, st =>
    if k = wid then (k, st) :: rest else (k, v) :: replaceA rest wid st

/-- Lines 322-330: store the entry if the id is new, or if the event's
`created_at` is strictly greater (Python string `>`) than the stored one. -/
def updateStatuses (m : List (Int × WorkflowStatus)) (wid : Int) (st : WorkflowStatus) :
    List (Int × WorkflowStatus) :=
  match lookupA m wid with
  | none => m ++ [(wid, st)]
  | some old => if strLt old.created_at st.created_at then replaceA m wid st else m

/-- Processing of one event inside the `for` loop of lines 308-330. -/
def step (filter : Option String) (m : List (Int × WorkflowStatus)) (e : Event) :
    List (Int × WorkflowStatus) :=
  match candidate filter e with
  | none => m
  | some (wid, st) => updateStatuses m wid st

/-- The whole `for` loop: fold over the event list starting from the
empty dict. -/
def aggregate (filter : Option String) (events : List Event) : List (Int × WorkflowStatus) :=
  events.foldl (step filter) []

/-- Stable descending insertion by `created_at`: an element is placed
before the first element it is not smaller than, so equal keys keep their
original relative order — the behaviour of Python's stable
`list.sort(key=..., reverse=True)`. -/
def insertDesc (x : WorkflowStatus) : List WorkflowStatus → List WorkflowStatus
  | [] => [x]
  | y :: ys => if strLt x.created_at y.created_at then y :: insertDesc x ys else x :: y :: ys

/-- `result.sort(key=lambda x: x["created_at"], reverse=True)` (line 334). -/
def sortByCreatedDesc (l : List WorkflowStatus) : List WorkflowStatus :=
  l.foldr insertDesc []

/-- `get_workflow_status` (lines 296-335) on a successfully fetched event
list: aggregate, take the dict's values, sort descending by `created_at`. -/
def getWorkflowStatus (filter : Option String) (events : List Event) : List WorkflowStatus :=
  sortByCreatedDesc ((aggregate filter events).map Prod.snd)

/-- The case-insensitive name match used to compare a (non-empty) filter
with an event's workflow name; events with no name never match. -/
def nameMatches (f : String) (e : Event) : Bool :=
  match e.workflow_run.name with
  | some nm => pyLower f == pyLower nm
  | none => false

/-! ### Concrete fixture events -/

/-- Fixture: a `CI` run of workflow 1 created `2024-01-01`. -/
def evCi1 : Event :=
  { event_type := some "workflow_run"
    workflow_run :=
      { workflow_id := some 1
        name := some "CI"
        status := some "completed"
        conclusion := some "failure"
        html_url := some "http://x/1"
        created_at := some "2024-01-01T00:00:00Z" } }

/-- Fixture: a later `CI` run of workflow 1 created `2024-01-02`. -/
def evCi2 : Event :=
  { event_type := some "workflow_run"
    workflow_run :=
      { workflow_id := some 1
        name := some "CI"
        status := some "completed"
        conclusion := some "success"
        html_url := some "http://x/2"
        created_at := some "2024-01-02T00:00:00Z" } }

/-- The status entry derived from `evCi2`. -/
def stCi2 : WorkflowStatus :=
  { name := "CI"
    status := some "completed"
    conclusion := some "success"
    url := some "http://x/2"
    created_at := "2024-01-02T00:00:00Z" }

/-- Fixture: workflow 7 observed as `queued` at a given instant. -/
def evTieQueued : Event :=
  { event_type := some "workflow_run"
    workflow_run :=
      { workflow_id := some 7
        name := some "Build"
        status := some "queued"
        conclusion := none
        html_url := some "http://x/7a"
        created_at := some "2024-03-03T10:00:00Z" } }

/-- Fixture: workflow 7 observed as `completed` at the same instant as
`evTieQueued`. -/
def evTieDone : Event :=
  { event_type := some "workflow_run"
    workflow_run :=
      { workflow_id := some 7
        name := some "Build"
        status := some "completed"
        conclusion := some "success"
        html_url := some "http://x/7b"
        created_at := some "2024-03-03T10:00:00Z" } }

/-- The status entry derived from `evTieQueued`. -/
def stTieQueued : WorkflowStatus :=
  { name := "Build"
    status := some "queued"
    conclusion := none
    url := some "http://x/7a"
    created_at := "2024-03-03T10:00:00Z" }

/-- The status entry derived from `evTieDone`. -/
def stTieDone : WorkflowStatus :=
  { name := "Build"
    status := some "completed"
    conclusion := some "success"
    url := some "http://x/7b"
    created_at := "2024-03-03T10:00:00Z" }

/-- Fixture: a `Deploy` run, used for the case-insensitive filter claim. -/
def evDeploy : Event :=
  { event_type := some "workflow_run"
    workflow_run :=
      { workflow_id := some 3
        name := some "Deploy"
        status := some "in_progress"
        conclusion := none
        html_url := some "http://x/3"
        created_at := some "2024-02-02T00:00:00Z" } }

/-- The status entry derived from `evDeploy`. -/
def stDeploy : WorkflowStatus :=
  { name := "Deploy"
    status := some "in_progress"
    conclusion := none
    url := some "http://x/3"
    created_at := "2024-02-02T00:00:00Z" }


/-- The "all timestamps distinct per id" side condition: any two events
of the list whose `candidate`s share a `workflow_id` and an equal
`created_at` project to the same status entry. -/
def tieOkB (filter : Option String) (e eP : Event) : Bool :=
  match candidate filter e, candidate filter eP with
  | some (wid, st), some (widP, stP) =>
    !(wid == widP) || !(st.created_at == stP.created_at) || st == stP
  | _, _ => true

/-- A whole event list is tie-consistent for a filter when every pair of
its events is. -/
def tieConsistent (filter : Option String) (l : List Event) : Prop :=
  ∀ e ∈ l, ∀ eP ∈ l, tieOkB filter e eP = true

instance tieConsistentDec (filter : Option String) (l : List Event) :
    Decidable (tieConsistent filter l) :=
  inferInstanceAs (Decidable (∀ e ∈ l, ∀ eP ∈ l, tieOkB filter e eP = true))

/-! ## Raw recent-events view (server.py lines 280-292) -/

/-- Python slice start index for `xs[-limit:]` on a list of length `n`:
the slice bound `-limit` is clamped to `[0, n]` after adding `n` when
negative.  For `limit = 0` the bound `-0` *is* `0`, so the slice starts
at the beginning. -/
def pySliceStart (limit : ℤ) (n : Nat) : Nat :=
  if 0 < limit then n - limit.toNat else min n (-limit).toNat

/-- `get_recent_actions_events` (lines 280-292) on a successfully fetched
non-empty event list: `events[-limit:]`, the raw feed slice, serialized
as is. -/
def recentActionsEvents {α : Type} (events : List α) (limit : ℤ) : List α :=
  events.drop (pySliceStart limit events.length)

/-- Modelled from the spec: "returns the last `limit` raw events from the
source feed in their original order" — the length-`n` suffix of the feed
(the whole feed when it is shorter than `n`). -/
def specLastN {α : Type} (n : Nat) (xs : List α) : List α :=
  xs.drop (xs.length - n)

/-! ## Git change collection (server.py lines 549-610) -/

/-- The outputs of the four git commands `_get_git_changes` runs, on the
success path: `git diff --name-status`, `git diff --stat`, `git diff`
and `git log --oneline` over `base_branch...HEAD`. -/
structure GitData where
  nameStatus : String
  stat : String
  diffOut : String
  log : String
deriving DecidableEq

/-- JSON-ish values for the fields of the returned dict, enough to keep
the present-with-`null` / absent distinction observable. -/
inductive JVal : Type where
  | str (s : String)
  | arr (xs : List String)
  | nat (n : Nat)
  | bool (b : Bool)
  | null
deriving DecidableEq

/-- Split a code-point list at every newline character.  A list with no
newline yields one piece; every `\n` starts a new piece; pieces never
contain `\n`. -/
def splitNl : List Char → List (List Char)
  | [] => [[]]
  | c :: rest =>
    if c = '\n' then [] :: splitNl rest
    else
      match splitNl rest with
      | [] => [[c]]
      | h :: t => (c :: h) :: t

/-- Drop a final empty piece, so that a trailing newline does not
contribute an empty line — the behaviour of Python `str.splitlines()`. -/
def dropTrailingEmpty (xs : List (List Char)) : List (List Char) :=
  if xs.getLast? = some [] then xs.dropLast else xs

/-- Python `str.splitlines()` for newline-separated text: split at every
`\n`, with no final empty line for a trailing newline and `[]` for the
empty string. -/
def pySplitlines (s : String) : List String :=
  (dropTrailingEmpty (splitNl s.data)).map (fun cs => ⟨cs⟩)

/-- Join code-point lists with a single newline between pieces
(no trailing newline). -/
def joinNl : List (List Char) → List Char
  | [] => []
  | [x] => x
  | x :: y :: xs => x ++ '\n' :: joinNl (y :: xs)

/-- Python `"\n".join(lines)`. -/
def joinNlS (xs : List String) : String :=
  ⟨joinNl (xs.map String.data)⟩

/-- First text line of the truncation trailer.  The braces are literal:
the Python source builds this trailer from a plain (non-f) string, so the
placeholder names appear verbatim in the output. -/
def trailerLine1 : String :=
  "... Output truncated. Showing \x7bmax_diff_lines\x7d of \x7blen(diff_lines)\x7d lines ..."

/-- Second text line of the truncation trailer. -/
def trailerLine2 : String :=
  "... Use max_diff_lines parameter to see more ..."

/-- The full trailer appended after the first `max_diff_lines` diff lines
(line 587): a blank separator line followed by the two text lines. -/
def truncTrailer : String :=
  "\n\n" ++ trailerLine1 ++ "\n" ++ trailerLine2

/-- The fixed placeholder used for the `diff` field when
`include_diff=false` (line 606). -/
def diffPlaceholder : String :=
  "Diff not included (set include_diff=true to see full diff)"

/-- `_get_git_changes` (lines 549-610) on the success path, as the
association list of the returned dict (key order as in the source).
`include_diff=false` skips the diff block, leaving `diff` empty,
`truncated` false and `diff_line_count` zero, and puts the placeholder
string and a `null` commits value into the result. -/
def getGitChanges (g : GitData) (include_diff : Bool) (max_diff_lines : Nat) :
    List (String × JVal) :=
  let changed_files := ((g.nameStatus.trim.splitOn "\n").map String.trim).filter (fun l => l ≠ "")
  let diff_lines := pySplitlines g.diffOut
  let diff_line_count := if include_diff then diff_lines.length else 0
  let truncated := include_diff && decide (max_diff_lines < diff_lines.length)
  let diff :=
    if include_diff then
      if max_diff_lines < diff_lines.length then
        joinNlS (diff_lines.take max_diff_lines) ++ truncTrailer
      else g.diffOut
    else ""
  [("changed_files", JVal.arr changed_files),
   ("statistics", JVal.str g.stat),
   ("diff", JVal.str (if include_diff then diff else diffPlaceholder)),
   ("truncated", JVal.bool truncated),
   ("diff_line_count", JVal.nat diff_line_count),
   ("commits", if include_diff then JVal.str g.log else JVal.null)]

/-- Fixture: git outputs with a two-line diff. -/
def gitTwoLines : GitData :=
  { nameStatus := "M\tsrc/a.py"
    stat := " 1 file changed"
    diffOut := "line one\nline two"
    log := "abc123 change" }

/-- Fixture: git outputs with a twelve-line diff `a` .. `l`. -/
def gitTwelveLines : GitData :=
  { nameStatus := "M\tsrc/a.py\nA\tsrc/b.py"
    stat := " 2 files changed"
    diffOut := "a\nb\nc\nd\ne\nf\ng\nh\ni\nj\nk\nl"
    log := "abc123 change" }

/-! ## Template selection (server.py lines 36-61 and 141-183) -/

/-- One entry of the template catalog as returned by `get_pr_templates`. -/
structure Template where
  filename : String
  type : String
  content : String
deriving DecidableEq

/-- `DEFAULT_TEMPLATES` (lines 36-44), in dict insertion order. -/
def defaultTemplates : List (String × String) :=
  [("bug.md", "Bug Fix"),
   ("feature.md", "Feature"),
   ("docs.md", "Documentation"),
   ("refactor.md", "Refactor"),
   ("test.md", "Test"),
   ("performance.md", "Performance"),
   ("security.md", "Security")]

/-- `TYPE_MAPPING` (lines 47-61), in dict insertion order. -/
def typeMapping : List (String × String) :=
  [("bug", "bug.md"),
   ("fix", "bug.md"),
   ("feature", "feature.md"),
   ("enhancement", "feature.md"),
   ("docs", "docs.md"),
   ("documentation", "docs.md"),
   ("refactor", "refactor.md"),
   ("cleanup", "refactor.md"),
   ("test", "test.md"),
   ("testing", "test.md"),
   ("performance", "performance.md"),
   ("optimization", "performance.md"),
   ("security", "security.md")]

/-- `get_pr_templates` (lines 141-153): the catalog built from
`DEFAULT_TEMPLATES` in iteration order.  File contents are read from
disk at call time; `readText` stands for that read (the template files
are not part of the analysed source), so the catalog shape is fixed and
only the contents vary with the environment. -/
def getPrTemplates (readText : String → String) : List Template :=
  defaultTemplates.map (fun p => { filename := p.1, type := p.2, content := readText p.1 })

/-- `next((t for t in templates if t["filename"] == template_file), templates[0])`
(lines 171-174): the first catalog entry carrying the resolved filename,
or the supplied first entry when none does. -/
def findTemplate (templates : List Template) (template_file : String) (first : Template) :
    Template :=
  (templates.find? (fun t => t.filename == template_file)).getD first

/-- The structured output of `suggest_template` (lines 176-181). -/
structure Suggestion where
  recommended_template : Template
  reasoning : String
  template_content : String
  usage_hint : String
deriving DecidableEq

/-- `suggest_template` (lines 156-183): resolve the lowercased
`change_type` through `TYPE_MAPPING` with default `"feature.md"`, pick
the matching catalog entry (first entry as fallback), and assemble the
suggestion.  `Inhabited` junk is never reached: the catalog always has
`bug.md` first (Python would raise on an empty catalog). -/
def suggestTemplate (readText : String → String) (changes_summary change_type : String) :
    Suggestion :=
  let templates := getPrTemplates readText
  let template_file := (typeMapping.lookup (pyLower change_type)).getD "feature.md"
  let selected := findTemplate templates template_file
    (templates.headD { filename := "", type := "", content := "" })
  { recommended_template := selected
    reasoning := "Based on your analysis: \x27" ++ changes_summary ++
      "\x27, this appears to be a " ++ change_type ++ " change."
    template_content := selected.content
    usage_hint :=
      "Claude can help you fill out this template based on the specific changes in your PR." }

/-! ## Order bridge lemmas -/

theorem ltChars_iff : ∀ as bs : List Char, ltChars as bs = true ↔ List.Lex (· < ·) as bs
  | [], [] => iff_of_false (by simp [ltChars]) (List.Lex.not_nil_right _ _)
  | [], _ :: _ => iff_of_true rfl List.Lex.nil
  | _ :: _, [] => iff_of_false (by simp [ltChars]) (List.Lex.not_nil_right _ _)
  | a :: as, b :: bs => by
    by_cases hab : a < b
    · refine iff_of_true ?_ (List.Lex.rel hab)
      simp [ltChars, hab]
    · by_cases hba : b < a
      · refine iff_of_false ?_ fun h => ?_
        · simp [ltChars, hab, hba]
        · cases h with
          | cons h' => exact absurd hba (lt_irrefl a)
          | rel h' => exact hab h'
      · have heq : a = b := le_antisymm (not_lt.mp hba) (not_lt.mp hab)
        subst heq
        rw [List.Lex.cons_iff]
        have hstep : ltChars (a :: as) (a :: bs) = ltChars as bs := by
          simp [ltChars, lt_irrefl]
        rw [hstep]
        exact ltChars_iff as bs

/-- `strLt` agrees with the (Mathlib) linear order on `String`. -/
theorem strLt_iff (a b : String) : strLt a b = true ↔ a < b :=
  (ltChars_iff a.data b.data).trans String.lt_iff_toList_lt.symm

/-- `strLe` agrees with the linear order on `String`. -/
theorem strLe_iff (a b : String) : strLe a b = true ↔ a ≤ b := by
  rw [← not_lt, ← strLt_iff b a]
  cases hb : strLt b a <;> simp [strLe, hb]


/-! ## Helper lemmas: association-list lookups -/

theorem lookup_mem_values {a b : Type} [BEq a] (l : List (a × b)) (k : a) (v : b)
    (h : l.lookup k = some v) : v ∈ l.map Prod.snd := by
  induction l with
  | nil => simp [List.lookup] at h
  | cons p rest ih =>
    rw [List.lookup] at h
    by_cases hk : (k == p.1) = true
    · rw [hk] at h
      simp at h
      simp [h]
    · rw [Bool.eq_false_iff.mpr hk] at h
      simp [ih h]

/-! ## Raw recent-events view: theorems -/

/-- C8 counterexample: with `limit = 0` the slice `events[-0:]` is the
whole feed, not the empty suffix of length zero that "the last 0 raw
events" denotes. -/
theorem recent_events_zero_limit_cex :
    recentActionsEvents [evCi1] (0 : ℤ) = [evCi1]
    ∧ specLastN ((0 : ℤ).toNat) [evCi1] = ([] : List Event)
    ∧ recentActionsEvents [evCi1] (0 : ℤ) ≠ specLastN ((0 : ℤ).toNat) [evCi1] := by
  refine ⟨rfl, rfl, by decide⟩

/-- C8 (amended): for every positive `limit`, `get_recent_actions_events`
returns exactly the last `min limit length` raw events of the feed — the
length-`limit` suffix, in original feed order, with no deduplication and
no status derivation. -/
theorem recent_events_positive_limit :
    ∀ (events : List Event) (limit : ℤ), 1 ≤ limit →
      recentActionsEvents events limit = specLastN limit.toNat events
      ∧ (recentActionsEvents events limit).length = min limit.toNat events.length
      ∧ recentActionsEvents events limit <:+ events := by
  intro events limit hpos
  have h0 : 0 < limit := lt_of_lt_of_le zero_lt_one hpos
  have hs : pySliceStart limit events.length = events.length - limit.toNat := if_pos h0
  refine ⟨?_, ?_, ?_⟩
  · rw [recentActionsEvents, hs]; rfl
  · rw [recentActionsEvents, hs, List.length_drop]
    omega
  · exact List.drop_suffix _ _

/-- C8 witness: the general theorem applied at a three-event feed and
`limit = 2`. -/
theorem recent_events_positive_limit_witness :
    recentActionsEvents [evCi1, evCi2, evDeploy] (2 : ℤ)
        = specLastN ((2 : ℤ).toNat) [evCi1, evCi2, evDeploy]
    ∧ (recentActionsEvents [evCi1, evCi2, evDeploy] (2 : ℤ)).length
        = min ((2 : ℤ).toNat) ([evCi1, evCi2, evDeploy].length)
    ∧ recentActionsEvents [evCi1, evCi2, evDeploy] (2 : ℤ) <:+ [evCi1, evCi2, evDeploy] :=
  recent_events_positive_limit [evCi1, evCi2, evDeploy] 2 (by decide)

/-! ## Git change collection: theorems for the `include_diff=false` path -/

/-- C3 counterexample: with `include_diff=false` the `commits` key is
*present* and carries `null` (Python `None`), not absent as the claim
states. -/
theorem include_diff_false_commits_cex :
    (getGitChanges gitTwoLines false 500).lookup "commits" = some JVal.null
    ∧ (getGitChanges gitTwoLines false 500).lookup "commits" ≠ none := by
  refine ⟨rfl, by decide⟩

/-- C3 (amended): for every git output and every `max_diff_lines`,
collection with `include_diff=false` succeeds and returns the full
six-field dict with the fixed placeholder as diff text, `commits`
present with value `null`, and `changed_files` / `statistics` populated
as usual (`truncated` false, `diff_line_count` zero). -/
theorem include_diff_false_shape (g : GitData) (L : Nat) :
    getGitChanges g false L =
      [("changed_files",
          JVal.arr (((g.nameStatus.trim.splitOn "\n").map String.trim).filter (fun l => l ≠ ""))),
       ("statistics", JVal.str g.stat),
       ("diff", JVal.str diffPlaceholder),
       ("truncated", JVal.bool false),
       ("diff_line_count", JVal.nat 0),
       ("commits", JVal.null)] := rfl

/-- C5: at `max_diff_lines=5` over the fixture twelve-line diff, the
emitted diff text is the first five lines plus the trailer, the count is
12 — but the trailer contains no digit at all (the string lacks the
f-prefix, so `\x7bmax_diff_lines\x7d` and `\x7blen(diff_lines)\x7d`
appear verbatim instead of `5` and `12`). -/
theorem truncation_trailer_has_no_numbers :
    (getGitChanges gitTwelveLines true 5).lookup "diff"
        = some (JVal.str ("a\nb\nc\nd\ne" ++ truncTrailer))
    ∧ (getGitChanges gitTwelveLines true 5).lookup "diff_line_count" = some (JVal.nat 12)
    ∧ (getGitChanges gitTwelveLines true 5).lookup "truncated" = some (JVal.bool true)
    ∧ truncTrailer.data.all (fun c => !c.isDigit) = true := by
  refine ⟨by decide, by decide, by decide, by decide⟩

/-! ## Template selection: theorems -/

/-- Every filename the keyword map can resolve to (its values, plus the
hard default) is a filename of the fixed catalog. -/
theorem resolved_filename_mem (k : String) :
    (typeMapping.lookup k).getD "feature.md" ∈ defaultTemplates.map Prod.fst := by
  rcases h : typeMapping.lookup k with _ | v
  · decide
  · have hv := lookup_mem_values typeMapping k v h
    simp only [Option.getD_some]
    fin_cases hv <;> decide

/-- The catalog always carries every resolvable filename: `find?` on the
resolved filename never fails. -/
theorem find_resolved_ne_none (readText : String → String) (k : String) :
    (getPrTemplates readText).find?
        (fun t => t.filename == (typeMapping.lookup k).getD "feature.md") ≠ none := by
  intro hnone
  have hall := List.find?_eq_none.mp hnone
  have hmem := resolved_filename_mem k
  rcases List.mem_map.mp hmem with ⟨p, hp, hfn⟩
  have hT : ({ filename := p.1, type := p.2, content := readText p.1 } : Template)
      ∈ getPrTemplates readText := by
    rw [getPrTemplates]
    exact List.mem_map.mpr ⟨p, hp, rfl⟩
  have := hall _ hT
  simp only [hfn] at this
  simp at this

/-- C7: template selection is total — the selected template is always a
catalog entry whose filename is the resolved one (lowercased lookup in
`TYPE_MAPPING`, default `"feature.md"` for absent keys), and the generic
fallback used at lines 171-174 returns the supplied first entry whenever
no catalog entry carries the resolved filename. -/
theorem suggest_template_total :
    (∀ (readText : String → String) (summary change_type : String),
        (suggestTemplate readText summary change_type).recommended_template
          ∈ getPrTemplates readText)
    ∧ (∀ (readText : String → String) (summary change_type : String),
        (suggestTemplate readText summary change_type).recommended_template.filename
          = (typeMapping.lookup (pyLower change_type)).getD "feature.md")
    ∧ (∀ change_type : String, typeMapping.lookup (pyLower change_type) = none →
        (typeMapping.lookup (pyLower change_type)).getD "feature.md" = "feature.md")
    ∧ (∀ (ts : List Template) (tf : String) (first : Template),
        ts.find? (fun t => t.filename == tf) = none → findTemplate ts tf first = first) := by
  refine ⟨?_, ?_, ?_, ?_⟩
  · intro readText summary change_type
    rcases hf : (getPrTemplates readText).find?
        (fun t => t.filename == (typeMapping.lookup (pyLower change_type)).getD "feature.md")
      with _ | t
    · exact absurd hf (find_resolved_ne_none readText (pyLower change_type))
    · have : (suggestTemplate readText summary change_type).recommended_template = t := by
        simp [suggestTemplate, findTemplate, hf]
      rw [this]
      exact List.mem_of_find?_eq_some hf
  · intro readText summary change_type
    rcases hf : (getPrTemplates readText).find?
        (fun t => t.filename == (typeMapping.lookup (pyLower change_type)).getD "feature.md")
      with _ | t
    · exact absurd hf (find_resolved_ne_none readText (pyLower change_type))
    · have hsel : (suggestTemplate readText summary change_type).recommended_template = t := by
        simp [suggestTemplate, findTemplate, hf]
      rw [hsel]
      have := List.find?_some hf
      exact eq_of_beq this
  · intro change_type h
    rw [h]
    rfl
  · intro ts tf first h
    rw [findTemplate, h]
    rfl

/-- C7 witness: the general theorem applied at a concrete unknown
classification string and at a concrete empty catalog for the fallback
clause. -/
theorem suggest_template_total_witness :
    (suggestTemplate (fun _ => "body") "sum" "surprising-kind").recommended_template
        ∈ getPrTemplates (fun _ => "body")
    ∧ (typeMapping.lookup (pyLower "surprising-kind")).getD "feature.md" = "feature.md"
    ∧ findTemplate [] "zzz.md" { filename := "f", type := "t", content := "c" }
        = { filename := "f", type := "t", content := "c" } :=
  ⟨suggest_template_total.1 (fun _ => "body") "sum" "surprising-kind",
   suggest_template_total.2.2.1 "surprising-kind" (by decide),
   suggest_template_total.2.2.2 [] "zzz.md" _ rfl⟩

/-- C10: the selected template and its content depend only on
`change_type` and the catalog, never on `changes_summary`; the summary
reaches only the free-text reasoning string. -/
theorem suggest_template_summary_independent :
    ∀ (readText : String → String) (change_type s1 s2 : String),
      (suggestTemplate readText s1 change_type).recommended_template
        = (suggestTemplate readText s2 change_type).recommended_template
      ∧ (suggestTemplate readText s1 change_type).template_content
        = (suggestTemplate readText s2 change_type).template_content
      ∧ (suggestTemplate readText s1 change_type).usage_hint
        = (suggestTemplate readText s2 change_type).usage_hint :=
  fun _ _ _ _ => ⟨rfl, rfl, rfl⟩


/-! ## Git diff line-splitting lemmas -/

theorem splitNl_ne_nil : ∀ cs : List Char, splitNl cs ≠ []
  | [] => by simp [splitNl]
  | c :: rest => by
    simp only [splitNl]
    split
    · simp
    · rcases hsp : splitNl rest with _ | ⟨p, t⟩ <;> simp

theorem mem_splitNl_no_nl : ∀ cs : List Char, ∀ p ∈ splitNl cs, '\n' ∉ p := by
  intro cs
  induction cs with
  | nil =>
    intro p hp
    simp [splitNl] at hp
    simp [hp]
  | cons c rest ih =>
    intro p hp
    simp only [splitNl] at hp
    by_cases hc : c = '\n'
    · rw [if_pos hc] at hp
      rcases List.mem_cons.mp hp with h | h
      · simp [h]
      · exact ih p h
    · rw [if_neg hc] at hp
      rcases hsp : splitNl rest with _ | ⟨q, t⟩
      · rw [hsp] at hp
        simp at hp
        subst hp
        simp [Ne.symm hc]
      · rw [hsp] at hp
        rcases List.mem_cons.mp hp with h | h
        · subst h
          intro hmem
          rcases List.mem_cons.mp hmem with hP | hP
          · exact hc hP.symm
          · exact ih q (by rw [hsp]; exact List.mem_cons_self q t) hP
        · exact ih p (by rw [hsp]; exact List.mem_cons_of_mem q h)

theorem splitNl_no_nl_eq (l : List Char) (h : '\n' ∉ l) : splitNl l = [l] := by
  induction l with
  | nil => rfl
  | cons c rest ih =>
    have hc : c ≠ '\n' := fun he => h (he ▸ List.mem_cons_self c rest)
    have hP : '\n' ∉ rest := fun hm => h (List.mem_cons_of_mem c hm)
    simp only [splitNl, if_neg hc, ih hP]

theorem splitNl_append_nl (l rest : List Char) (h : '\n' ∉ l) :
    splitNl (l ++ '\n' :: rest) = l :: splitNl rest := by
  induction l with
  | nil => simp [splitNl]
  | cons c cs ih =>
    have hc : c ≠ '\n' := fun he => h (he ▸ List.mem_cons_self c cs)
    have hP : '\n' ∉ cs := fun hm => h (List.mem_cons_of_mem c hm)
    simp only [List.cons_append, splitNl, if_neg hc, List.append_eq, ih hP]

theorem splitNl_joinNl : ∀ (xs : List (List Char)), (∀ p ∈ xs, '\n' ∉ p) → xs ≠ [] →
    ∀ rest : List Char, splitNl (joinNl xs ++ '\n' :: rest) = xs ++ splitNl rest
  | [], _, hne, _ => absurd rfl hne
  | [x], hx, _, rest => by
    simp only [joinNl]
    rw [splitNl_append_nl x rest (hx x (List.mem_singleton_self x))]
    rfl
  | x :: y :: ys, hx, _, rest => by
    simp only [joinNl]
    rw [List.cons_append, List.append_assoc]
    have hxmem : '\n' ∉ x := hx x (List.mem_cons_self x (y :: ys))
    have hx' : ∀ p ∈ y :: ys, '\n' ∉ p := fun p hp => hx p (List.mem_cons_of_mem x hp)
    rw [show ('\n' :: joinNl (y :: ys)) ++ '\n' :: rest
          = '\n' :: (joinNl (y :: ys) ++ '\n' :: rest) from rfl]
    rw [splitNl_append_nl x _ hxmem]
    rw [splitNl_joinNl (y :: ys) hx' (by simp) rest]

theorem splitNl_cons_nl (rest : List Char) :
    splitNl ('\n' :: rest) = [] :: splitNl rest := by
  rw [splitNl, if_pos rfl]

theorem getLast?_append_triple {a : Type} (l : List a) (x y z : a) :
    (l ++ [x, y, z]).getLast? = some z := by
  rw [List.getLast?_append]
  rfl

/-- The central truncation-shape lemma: joining `xs` with newlines and
appending the trailer splits back into `xs` followed by the blank line
and the two trailer text lines. -/
theorem pySplitlines_join_trailer (xs : List String) (hx : ∀ l ∈ xs, '\n' ∉ l.data)
    (hne : xs ≠ []) :
    pySplitlines (joinNlS xs ++ truncTrailer) = xs ++ ["", trailerLine1, trailerLine2] := by
  have hdata : (joinNlS xs ++ truncTrailer).data
      = joinNl (xs.map String.data)
        ++ '\n' :: ('\n' :: (trailerLine1.data ++ '\n' :: trailerLine2.data)) := by
    rw [String.data_append]
    rfl
  have hx' : ∀ p ∈ xs.map String.data, '\n' ∉ p := by
    intro p hp
    rcases List.mem_map.mp hp with ⟨l, hl, hld⟩
    exact hld ▸ hx l hl
  have hne' : xs.map String.data ≠ [] := by
    intro h
    exact hne (List.map_eq_nil_iff.mp h)
  have h1 : '\n' ∉ trailerLine1.data := by decide
  have h2 : '\n' ∉ trailerLine2.data := by decide
  rw [pySplitlines, hdata, splitNl_joinNl (xs.map String.data) hx' hne']
  rw [splitNl_cons_nl]
  rw [splitNl_append_nl trailerLine1.data trailerLine2.data h1]
  rw [splitNl_no_nl_eq trailerLine2.data h2]
  rw [dropTrailingEmpty, if_neg ?hlast]
  case hlast =>
    rw [getLast?_append_triple]
    intro h
    have : trailerLine2.data = [] := by injection h
    revert this
    decide
  have hcomp : ((fun cs : List Char => (⟨cs⟩ : String)) ∘ String.data) = id := by
    funext l
    cases l
    rfl
  rw [List.map_append, List.map_map, hcomp, List.map_id]
  rfl

theorem mem_pySplitlines_no_nl (s : String) : ∀ l ∈ pySplitlines s, '\n' ∉ l.data := by
  intro l hl
  rw [pySplitlines] at hl
  rcases List.mem_map.mp hl with ⟨cs, hcs, hmk⟩
  have hcs' : cs ∈ splitNl s.data := by
    rw [dropTrailingEmpty] at hcs
    split at hcs
    · exact List.dropLast_subset _ hcs
    · exact hcs
  have := mem_splitNl_no_nl s.data cs hcs'
  rw [← hmk]
  exact this

/-- C2 counterexample: with cap `L = 1` over a two-line diff the emitted
diff text splits into 4 lines — the one kept diff line, the blank
separator and the two trailer text lines — exceeding the claimed bound
of `L + 1 = 2` lines. -/
theorem diff_truncation_line_cap_cex :
    (getGitChanges gitTwoLines true 1).lookup "diff"
        = some (JVal.str ("line one" ++ truncTrailer))
    ∧ (pySplitlines ("line one" ++ truncTrailer)).length = 4
    ∧ ¬(pySplitlines ("line one" ++ truncTrailer)).length ≤ 1 + 1 := by
  refine ⟨by decide, by decide, by decide⟩

/-- C2 (amended): with `include_diff=true` and cap `L`, when the full
diff has `N` lines: `diff_line_count` is always `N`; if `N ≤ L` the text
is the whole diff verbatim and `truncated` is false; if `N > L` the text
is the first `L` diff lines joined with newlines followed by the fixed
trailer (a blank line plus two explanatory lines) and `truncated` is
true — the text then has exactly `L + 3` lines when `L ≥ 1`, and `4`
lines when `L = 0` (the empty join leaves one extra leading empty line),
so in every case `max L 1 + 3 ≤ L + 4` lines. -/
theorem diff_truncation_spec :
    ∀ (g : GitData) (L : Nat),
      (getGitChanges g true L).lookup "diff_line_count"
          = some (JVal.nat (pySplitlines g.diffOut).length)
      ∧ ((pySplitlines g.diffOut).length ≤ L →
          (getGitChanges g true L).lookup "truncated" = some (JVal.bool false)
          ∧ (getGitChanges g true L).lookup "diff" = some (JVal.str g.diffOut))
      ∧ (L < (pySplitlines g.diffOut).length →
          (getGitChanges g true L).lookup "truncated" = some (JVal.bool true)
          ∧ (getGitChanges g true L).lookup "diff"
              = some (JVal.str (joinNlS ((pySplitlines g.diffOut).take L) ++ truncTrailer))
          ∧ pySplitlines (joinNlS ((pySplitlines g.diffOut).take L) ++ truncTrailer)
              = (pySplitlines g.diffOut).take L
                ++ (if L = 0 then [""] else []) ++ ["", trailerLine1, trailerLine2]
          ∧ (pySplitlines (joinNlS ((pySplitlines g.diffOut).take L) ++ truncTrailer)).length
              = max L 1 + 3
          ∧ (pySplitlines (joinNlS ((pySplitlines g.diffOut).take L) ++ truncTrailer)).length
              ≤ L + 4) := by
  intro g L
  refine ⟨?_, ?_, ?_⟩
  · simp [getGitChanges, List.lookup]
  · intro hle
    have hnot : ¬ L < (pySplitlines g.diffOut).length := not_lt.mpr hle
    exact ⟨by simp [getGitChanges, List.lookup, hnot],
           by simp [getGitChanges, List.lookup, hnot]⟩
  · intro hlt
    refine ⟨by simp [getGitChanges, List.lookup, hlt],
            by simp [getGitChanges, List.lookup, hlt], ?_⟩
    rcases Nat.eq_zero_or_pos L with rfl | hL
    · have hs : pySplitlines (joinNlS ((pySplitlines g.diffOut).take 0) ++ truncTrailer)
          = (pySplitlines g.diffOut).take 0
            ++ (if 0 = 0 then [""] else []) ++ ["", trailerLine1, trailerLine2] := by
        rw [List.take_zero]
        decide
      refine ⟨hs, ?_, ?_⟩
      · rw [hs, List.take_zero]
        decide
      · rw [hs, List.take_zero]
        decide
    · have hx : ∀ l ∈ (pySplitlines g.diffOut).take L, '\n' ∉ l.data :=
        fun l hl => mem_pySplitlines_no_nl g.diffOut l (List.take_subset _ _ hl)
      have hne : (pySplitlines g.diffOut).take L ≠ [] := by
        intro h
        have hlen := congrArg List.length h
        rw [List.length_take] at hlen
        simp only [List.length_nil] at hlen
        omega
      have hmain := pySplitlines_join_trailer _ hx hne
      have hL0 : ¬ L = 0 := Nat.pos_iff_ne_zero.mp hL
      have hs : pySplitlines (joinNlS ((pySplitlines g.diffOut).take L) ++ truncTrailer)
          = (pySplitlines g.diffOut).take L
            ++ (if L = 0 then [""] else []) ++ ["", trailerLine1, trailerLine2] := by
        rw [hmain, if_neg hL0, List.append_nil]
      have hlen : (pySplitlines (joinNlS ((pySplitlines g.diffOut).take L)
          ++ truncTrailer)).length = max L 1 + 3 := by
        rw [hmain, List.length_append, List.length_take]
        simp
        omega
      exact ⟨hs, hlen, by omega⟩

/-- C2 witness: the amended theorem applied over the two-line fixture
diff, discharging the no-truncation branch at cap 5, the truncation
branch at cap 1, and the zero-cap line count at cap 0. -/
theorem diff_truncation_spec_witness :
    (getGitChanges gitTwoLines true 5).lookup "truncated" = some (JVal.bool false)
    ∧ (getGitChanges gitTwoLines true 1).lookup "truncated" = some (JVal.bool true)
    ∧ (getGitChanges gitTwoLines true 1).lookup "diff"
        = some (JVal.str (joinNlS ((pySplitlines gitTwoLines.diffOut).take 1) ++ truncTrailer))
    ∧ (pySplitlines (joinNlS ((pySplitlines gitTwoLines.diffOut).take 1) ++ truncTrailer)).length
        = max 1 1 + 3
    ∧ (pySplitlines (joinNlS ((pySplitlines gitTwoLines.diffOut).take 0) ++ truncTrailer)).length
        = max 0 1 + 3 :=
  ⟨((diff_truncation_spec gitTwoLines 5).2.1 (by decide)).1,
   ((diff_truncation_spec gitTwoLines 1).2.2 (by decide)).1,
   ((diff_truncation_spec gitTwoLines 1).2.2 (by decide)).2.1,
   ((diff_truncation_spec gitTwoLines 1).2.2 (by decide)).2.2.2.1,
   ((diff_truncation_spec gitTwoLines 0).2.2 (by decide)).2.2.2.1⟩

/-! ## Aggregation dict lemmas -/

theorem lookupA_eq_none_iff (m : List (Int × WorkflowStatus)) (wid : Int) :
    lookupA m wid = none ↔ wid ∉ m.map Prod.fst := by
  induction m with
  | nil => simp [lookupA]
  | cons p rest ih =>
    rcases p with ⟨k, v⟩
    by_cases hk : k = wid
    · subst hk
      simp [lookupA]
    · simp [lookupA, if_neg hk, ih, Ne.symm hk]

theorem lookupA_mem (m : List (Int × WorkflowStatus)) (wid : Int) (st : WorkflowStatus)
    (h : lookupA m wid = some st) : (wid, st) ∈ m := by
  induction m with
  | nil => simp [lookupA] at h
  | cons p rest ih =>
    rcases p with ⟨k, v⟩
    rw [lookupA] at h
    by_cases hk : k = wid
    · rw [if_pos hk] at h
      injection h with h
      subst hk
      subst h
      exact List.mem_cons_self _ _
    · rw [if_neg hk] at h
      exact List.mem_cons_of_mem _ (ih h)

theorem mem_lookupA (m : List (Int × WorkflowStatus)) (wid : Int) (st : WorkflowStatus)
    (hnd : (m.map Prod.fst).Nodup) (h : (wid, st) ∈ m) : lookupA m wid = some st := by
  induction m with
  | nil => cases h
  | cons p rest ih =>
    rcases p with ⟨k, v⟩
    rw [List.map_cons, List.nodup_cons] at hnd
    rcases List.mem_cons.mp h with he | he
    · injection he with h1 h2
      subst h1
      subst h2
      rw [lookupA, if_pos rfl]
    · by_cases hk : k = wid
      · subst hk
        exact absurd (List.mem_map_of_mem Prod.fst he) hnd.1
      · rw [lookupA, if_neg hk]
        exact ih hnd.2 he

theorem replaceA_map_fst (m : List (Int × WorkflowStatus)) (wid : Int) (st : WorkflowStatus) :
    (replaceA m wid st).map Prod.fst = m.map Prod.fst := by
  induction m with
  | nil => rfl
  | cons p rest ih =>
    rcases p with ⟨k, v⟩
    rw [replaceA]
    by_cases hk : k = wid
    · rw [if_pos hk]
      simp
    · rw [if_neg hk]
      simp [ih]

theorem mem_replaceA (m : List (Int × WorkflowStatus)) (wid : Int) (st : WorkflowStatus)
    (p : Int × WorkflowStatus) (h : p ∈ replaceA m wid st) : p ∈ m ∨ p = (wid, st) := by
  induction m with
  | nil => cases h
  | cons q rest ih =>
    rcases q with ⟨k, v⟩
    rw [replaceA] at h
    by_cases hk : k = wid
    · rw [if_pos hk] at h
      rcases List.mem_cons.mp h with he | he
      · right
        rw [he, hk]
      · left
        exact List.mem_cons_of_mem _ he
    · rw [if_neg hk] at h
      rcases List.mem_cons.mp h with he | he
      · left
        rw [he]
        exact List.mem_cons_self _ _
      · rcases ih he with hP | hP
        · left
          exact List.mem_cons_of_mem _ hP
        · right
          exact hP

theorem lookupA_replaceA_self (m : List (Int × WorkflowStatus)) (wid : Int)
    (st old : WorkflowStatus) (h : lookupA m wid = some old) :
    lookupA (replaceA m wid st) wid = some st := by
  induction m with
  | nil => simp [lookupA] at h
  | cons q rest ih =>
    rcases q with ⟨k, v⟩
    rw [replaceA]
    by_cases hk : k = wid
    · rw [if_pos hk, lookupA, if_pos hk]
    · rw [lookupA, if_neg hk] at h
      rw [if_neg hk, lookupA, if_neg hk]
      exact ih h

theorem lookupA_replaceA_ne (m : List (Int × WorkflowStatus)) (wid : Int)
    (st : WorkflowStatus) (w : Int) (hne : w ≠ wid) :
    lookupA (replaceA m wid st) w = lookupA m w := by
  induction m with
  | nil => rfl
  | cons q rest ih =>
    rcases q with ⟨k, v⟩
    rw [replaceA]
    by_cases hk : k = wid
    · subst hk
      rw [if_pos rfl, lookupA, lookupA, if_neg (fun h => hne h.symm),
        if_neg (fun h => hne h.symm)]
    · rw [if_neg hk]
      simp only [lookupA, ih]

theorem lookupA_append_some (m l : List (Int × WorkflowStatus)) (w : Int)
    (v : WorkflowStatus) (h : lookupA m w = some v) : lookupA (m ++ l) w = some v := by
  induction m with
  | nil => simp [lookupA] at h
  | cons q rest ih =>
    rcases q with ⟨k, u⟩
    rw [List.cons_append, lookupA]
    rw [lookupA] at h
    by_cases hk : k = w
    · rwa [if_pos hk] at h ⊢
    · rw [if_neg hk] at h ⊢
      exact ih h

theorem lookupA_append_right (m l : List (Int × WorkflowStatus)) (w : Int)
    (h : lookupA m w = none) : lookupA (m ++ l) w = lookupA l w := by
  induction m with
  | nil => rfl
  | cons q rest ih =>
    rcases q with ⟨k, u⟩
    rw [lookupA] at h
    by_cases hk : k = w
    · rw [if_pos hk] at h
      cases h
    · rw [List.cons_append, lookupA, if_neg hk]
      rw [if_neg hk] at h
      exact ih h

/-! ## Update and step lemmas -/

theorem updateStatuses_map_fst_nodup (m : List (Int × WorkflowStatus)) (wid : Int)
    (st : WorkflowStatus) (hnd : (m.map Prod.fst).Nodup) :
    ((updateStatuses m wid st).map Prod.fst).Nodup := by
  rcases h : lookupA m wid with _ | old
  · have hw : wid ∉ m.map Prod.fst := (lookupA_eq_none_iff m wid).mp h
    simp only [updateStatuses, h]
    rw [List.map_append]
    refine List.Nodup.append hnd (List.nodup_singleton wid) ?_
    simpa [List.disjoint_singleton] using hw
  · simp only [updateStatuses, h]
    by_cases hlt : strLt old.created_at st.created_at = true
    · rw [if_pos hlt, replaceA_map_fst]
      exact hnd
    · rw [if_neg hlt]
      exact hnd

theorem mem_updateStatuses (m : List (Int × WorkflowStatus)) (wid : Int)
    (st : WorkflowStatus) (p : Int × WorkflowStatus) (h : p ∈ updateStatuses m wid st) :
    p ∈ m ∨ p = (wid, st) := by
  rcases hl : lookupA m wid with _ | old
  · simp only [updateStatuses, hl] at h
    rcases List.mem_append.mp h with hm | hm
    · exact Or.inl hm
    · right
      simpa using hm
  · simp only [updateStatuses, hl] at h
    by_cases hlt : strLt old.created_at st.created_at = true
    · rw [if_pos hlt] at h
      exact mem_replaceA m wid st p h
    · rw [if_neg hlt] at h
      exact Or.inl h

theorem lookupA_updateStatuses_mono (m : List (Int × WorkflowStatus)) (wid : Int)
    (st : WorkflowStatus) (w : Int) (v : WorkflowStatus) (h : lookupA m w = some v) :
    ∃ vP, lookupA (updateStatuses m wid st) w = some vP ∧ v.created_at ≤ vP.created_at := by
  rcases hl : lookupA m wid with _ | old
  · simp only [updateStatuses, hl]
    exact ⟨v, lookupA_append_some m _ w v h, le_refl _⟩
  · simp only [updateStatuses, hl]
    by_cases hlt : strLt old.created_at st.created_at = true
    · rw [if_pos hlt]
      by_cases hw : w = wid
      · subst hw
        rw [h] at hl
        injection hl with hl
        subst hl
        exact ⟨st, lookupA_replaceA_self m w st v h,
          le_of_lt ((strLt_iff _ _).mp hlt)⟩
      · rw [lookupA_replaceA_ne m wid st w hw]
        exact ⟨v, h, le_refl _⟩
    · rw [if_neg hlt]
      exact ⟨v, h, le_refl _⟩

theorem lookupA_updateStatuses_self (m : List (Int × WorkflowStatus)) (wid : Int)
    (st : WorkflowStatus) :
    ∃ vP, lookupA (updateStatuses m wid st) wid = some vP ∧ st.created_at ≤ vP.created_at := by
  rcases hl : lookupA m wid with _ | old
  · simp only [updateStatuses, hl]
    refine ⟨st, ?_, le_refl _⟩
    rw [lookupA_append_right m _ wid hl, lookupA, if_pos rfl]
  · simp only [updateStatuses, hl]
    by_cases hlt : strLt old.created_at st.created_at = true
    · rw [if_pos hlt]
      exact ⟨st, lookupA_replaceA_self m wid st old hl, le_refl _⟩
    · rw [if_neg hlt]
      exact ⟨old, hl, not_lt.mp fun hc => hlt ((strLt_iff _ _).mpr hc)⟩

theorem step_map_fst_nodup (f : Option String) (m : List (Int × WorkflowStatus)) (e : Event)
    (hnd : (m.map Prod.fst).Nodup) : ((step f m e).map Prod.fst).Nodup := by
  rcases hc : candidate f e with _ | p
  · simpa only [step, hc] using hnd
  · rcases p with ⟨wid, st⟩
    simp only [step, hc]
    exact updateStatuses_map_fst_nodup m wid st hnd

theorem mem_step (f : Option String) (m : List (Int × WorkflowStatus)) (e : Event)
    (p : Int × WorkflowStatus) (h : p ∈ step f m e) : p ∈ m ∨ candidate f e = some p := by
  rcases hc : candidate f e with _ | q
  · simp only [step, hc] at h
    exact Or.inl h
  · rcases q with ⟨wid, st⟩
    simp only [step, hc] at h
    rcases mem_updateStatuses m wid st p h with hP | hP
    · exact Or.inl hP
    · right
      subst hP
      rfl

theorem lookupA_step_mono (f : Option String) (m : List (Int × WorkflowStatus)) (e : Event)
    (w : Int) (v : WorkflowStatus) (h : lookupA m w = some v) :
    ∃ vP, lookupA (step f m e) w = some vP ∧ v.created_at ≤ vP.created_at := by
  rcases hc : candidate f e with _ | q
  · simp only [step, hc]
    exact ⟨v, h, le_refl _⟩
  · rcases q with ⟨wid, st⟩
    simp only [step, hc]
    exact lookupA_updateStatuses_mono m wid st w v h

theorem lookupA_step_candidate (f : Option String) (m : List (Int × WorkflowStatus))
    (e : Event) (wid : Int) (st : WorkflowStatus) (hc : candidate f e = some (wid, st)) :
    ∃ vP, lookupA (step f m e) wid = some vP ∧ st.created_at ≤ vP.created_at := by
  simp only [step, hc]
  exact lookupA_updateStatuses_self m wid st

/-! ## Fold invariants over the event list -/

theorem foldl_step_map_fst_nodup (f : Option String) :
    ∀ (es : List Event) (m : List (Int × WorkflowStatus)), (m.map Prod.fst).Nodup →
      ((es.foldl (step f) m).map Prod.fst).Nodup
  | [], _, h => h
  | e :: es, m, h => foldl_step_map_fst_nodup f es (step f m e) (step_map_fst_nodup f m e h)

theorem mem_foldl_step (f : Option String) :
    ∀ (es : List Event) (m : List (Int × WorkflowStatus)) (p : Int × WorkflowStatus),
      p ∈ es.foldl (step f) m → p ∈ m ∨ ∃ e ∈ es, candidate f e = some p
  | [], _, _, h => Or.inl h
  | e :: es, m, p, h => by
    rcases mem_foldl_step f es (step f m e) p h with hP | hP
    · rcases mem_step f m e p hP with h2 | h2
      · exact Or.inl h2
      · exact Or.inr ⟨e, List.mem_cons_self e es, h2⟩
    · rcases hP with ⟨e2, he2, hc2⟩
      exact Or.inr ⟨e2, List.mem_cons_of_mem e he2, hc2⟩

theorem lookupA_foldl_mono (f : Option String) :
    ∀ (es : List Event) (m : List (Int × WorkflowStatus)) (w : Int) (v : WorkflowStatus),
      lookupA m w = some v →
      ∃ vP, lookupA (es.foldl (step f) m) w = some vP ∧ v.created_at ≤ vP.created_at
  | [], _, _, v, h => ⟨v, h, le_refl _⟩
  | e :: es, m, w, v, h => by
    rcases lookupA_step_mono f m e w v h with ⟨v1, h1, hle1⟩
    rcases lookupA_foldl_mono f es (step f m e) w v1 h1 with ⟨v2, h2, hle2⟩
    exact ⟨v2, h2, le_trans hle1 hle2⟩

theorem lookupA_foldl_candidate (f : Option String) :
    ∀ (es : List Event) (m : List (Int × WorkflowStatus)) (e : Event) (wid : Int)
      (st : WorkflowStatus), e ∈ es → candidate f e = some (wid, st) →
      ∃ vP, lookupA (es.foldl (step f) m) wid = some vP ∧ st.created_at ≤ vP.created_at
  | [], _, _, _, _, he, _ => absurd he (List.not_mem_nil _)
  | e2 :: es, m, e, wid, st, he, hc => by
    rcases List.mem_cons.mp he with h | h
    · subst h
      rcases lookupA_step_candidate f m e wid st hc with ⟨v1, h1, hle1⟩
      rcases lookupA_foldl_mono f es (step f m e) wid v1 h1 with ⟨v2, h2, hle2⟩
      exact ⟨v2, h2, le_trans hle1 hle2⟩
    · exact lookupA_foldl_candidate f es (step f m e2) e wid st h hc

theorem aggregate_map_fst_nodup (f : Option String) (es : List Event) :
    ((aggregate f es).map Prod.fst).Nodup :=
  foldl_step_map_fst_nodup f es [] (by simp)

theorem mem_aggregate (f : Option String) (es : List Event) (p : Int × WorkflowStatus)
    (h : p ∈ aggregate f es) : ∃ e ∈ es, candidate f e = some p := by
  rcases mem_foldl_step f es [] p h with hP | hP
  · cases hP
  · exact hP

theorem aggregate_lookup_candidate (f : Option String) (es : List Event) (e : Event)
    (wid : Int) (st : WorkflowStatus) (he : e ∈ es) (hc : candidate f e = some (wid, st)) :
    ∃ vP, lookupA (aggregate f es) wid = some vP ∧ st.created_at ≤ vP.created_at :=
  lookupA_foldl_candidate f es [] e wid st he hc

/-! ## The final sort is a permutation -/

theorem insertDesc_perm (x : WorkflowStatus) (l : List WorkflowStatus) :
    (insertDesc x l).Perm (x :: l) := by
  induction l with
  | nil => exact List.Perm.refl _
  | cons y ys ih =>
    rw [insertDesc]
    split
    · exact ((ih.cons y).trans (List.Perm.swap x y ys))
    · exact List.Perm.refl _

theorem sortByCreatedDesc_perm (l : List WorkflowStatus) :
    (sortByCreatedDesc l).Perm l := by
  induction l with
  | nil => exact List.Perm.refl _
  | cons x xs ih =>
    have h1 : sortByCreatedDesc (x :: xs) = insertDesc x (sortByCreatedDesc xs) := rfl
    rw [h1]
    exact (insertDesc_perm x (sortByCreatedDesc xs)).trans (ih.cons x)

theorem mem_sortByCreatedDesc (l : List WorkflowStatus) (st : WorkflowStatus) :
    st ∈ sortByCreatedDesc l ↔ st ∈ l :=
  (sortByCreatedDesc_perm l).mem_iff

theorem length_sortByCreatedDesc (l : List WorkflowStatus) :
    (sortByCreatedDesc l).length = l.length :=
  (sortByCreatedDesc_perm l).length_eq

/-! ## Membership characterization of the status view -/

theorem mem_getWorkflowStatus_maximal (f : Option String) (es : List Event)
    (st : WorkflowStatus) (h : st ∈ getWorkflowStatus f es) :
    ∃ wid, (∃ e ∈ es, candidate f e = some (wid, st))
      ∧ ∀ eP ∈ es, ∀ stP, candidate f eP = some (wid, stP) →
          stP.created_at ≤ st.created_at := by
  rw [getWorkflowStatus, mem_sortByCreatedDesc] at h
  rcases List.mem_map.mp h with ⟨⟨wid, st2⟩, hmem, hsnd⟩
  cases hsnd
  refine ⟨wid, mem_aggregate f es _ hmem, ?_⟩
  intro eP heP stP hcP
  rcases aggregate_lookup_candidate f es eP wid stP heP hcP with ⟨vP, hlook, hle⟩
  have hl2 : lookupA (aggregate f es) wid = some st2 :=
    mem_lookupA _ _ _ (aggregate_map_fst_nodup f es) hmem
  rw [hlook] at hl2
  injection hl2 with hl2
  rw [hl2] at hle
  exact hle

theorem maximal_mem_getWorkflowStatus (f : Option String) (es : List Event) (wid : Int)
    (st : WorkflowStatus) (H : tieConsistent f es)
    (hex : ∃ e ∈ es, candidate f e = some (wid, st))
    (hmax : ∀ eP ∈ es, ∀ stP, candidate f eP = some (wid, stP) →
      stP.created_at ≤ st.created_at) :
    st ∈ getWorkflowStatus f es := by
  rcases hex with ⟨e, he, hc⟩
  rcases aggregate_lookup_candidate f es e wid st he hc with ⟨vP, hlook, hle⟩
  have hmem : (wid, vP) ∈ aggregate f es := lookupA_mem _ _ _ hlook
  rcases mem_aggregate f es _ hmem with ⟨e2, he2, hc2⟩
  have hle2 : vP.created_at ≤ st.created_at := hmax e2 he2 vP hc2
  have heq : st.created_at = vP.created_at := le_antisymm hle hle2
  have htie := H e he e2 he2
  rw [tieOkB, hc, hc2] at htie
  simp only [beq_self_eq_true, Bool.not_true, Bool.false_or] at htie
  rw [show st.created_at = vP.created_at from heq] at htie
  simp only [beq_self_eq_true, Bool.not_true, Bool.false_or] at htie
  have hst : st = vP := by
    rwa [beq_iff_eq] at htie
  rw [getWorkflowStatus, mem_sortByCreatedDesc]
  refine List.mem_map.mpr ⟨(wid, vP), hmem, ?_⟩
  rw [← hst]

/-! ## Claim theorems for the event aggregation -/

/-- C1: for every input event list and optional name filter the
aggregation keys are pairwise distinct (one dict entry per
`workflow_id`, and the emitted list has exactly one entry per stored
id); every emitted entry is the projection of a valid, filter-matching
`workflow_run` event for its id whose `created_at` is greatest among all
such events; and feeding two events with the same `workflow_id` and
different `created_at` — in either order — yields exactly the one entry
derived from the greater `created_at`. -/
theorem workflow_status_dedup_latest :
    (∀ (f : Option String) (es : List Event),
        ((aggregate f es).map Prod.fst).Nodup
        ∧ (getWorkflowStatus f es).length = (aggregate f es).length)
    ∧ (∀ (f : Option String) (es : List Event) (st : WorkflowStatus),
        st ∈ getWorkflowStatus f es →
        ∃ wid, (∃ e ∈ es, candidate f e = some (wid, st))
          ∧ ∀ eP ∈ es, ∀ stP, candidate f eP = some (wid, stP) →
              stP.created_at ≤ st.created_at)
    ∧ getWorkflowStatus none [evCi1, evCi2] = [stCi2]
    ∧ getWorkflowStatus none [evCi2, evCi1] = [stCi2] := by
  refine ⟨?_, mem_getWorkflowStatus_maximal, by decide, by decide⟩
  intro f es
  refine ⟨aggregate_map_fst_nodup f es, ?_⟩
  rw [getWorkflowStatus, length_sortByCreatedDesc, List.length_map]

/-- C1 witness: the latest-entry characterization applied to the
concrete two-event run. -/
theorem workflow_status_dedup_latest_witness :
    ∃ wid, (∃ e ∈ [evCi1, evCi2], candidate none e = some (wid, stCi2))
      ∧ ∀ eP ∈ [evCi1, evCi2], ∀ stP, candidate none eP = some (wid, stP) →
          stP.created_at ≤ stCi2.created_at :=
  workflow_status_dedup_latest.2.1 none [evCi1, evCi2] stCi2 (by decide)

/-- C9: a stored entry is replaced only on a strictly greater
`created_at`: appending an event whose `created_at` equals the stored
one leaves the aggregation unchanged, so the earlier event of a tie
wins — as the concrete equal-timestamp run shows. -/
theorem equal_created_at_keeps_earlier :
    (∀ (f : Option String) (es : List Event) (e : Event) (wid : Int)
        (st old : WorkflowStatus),
        candidate f e = some (wid, st) →
        lookupA (aggregate f es) wid = some old →
        old.created_at = st.created_at →
        aggregate f (es ++ [e]) = aggregate f es)
    ∧ getWorkflowStatus none [evTieQueued, evTieDone] = [stTieQueued] := by
  constructor
  · intro f es e wid st old hc hl heq
    rw [aggregate, List.foldl_append]
    simp only [List.foldl_cons, List.foldl_nil]
    have hl' : lookupA (List.foldl (step f) [] es) wid = some old := hl
    have hnlt : ¬ strLt old.created_at st.created_at = true := by
      rw [strLt_iff, heq]
      exact lt_irrefl _
    simp only [step, hc, updateStatuses, hl', if_neg hnlt]
    rfl
  · decide

/-- C9 witness: the general tie theorem applied to the concrete
equal-timestamp events of workflow 7. -/
theorem equal_created_at_keeps_earlier_witness :
    aggregate none ([evTieQueued] ++ [evTieDone]) = aggregate none [evTieQueued] :=
  equal_created_at_keeps_earlier.1 none [evTieQueued] evTieDone 7 stTieDone stTieQueued
    (by decide) (by decide) (by decide)

/-- C4 counterexample: two events with the same `workflow_id` and equal
`created_at` but different payloads — permuting them changes the
resulting status set, because on a tie the first-processed event wins. -/
theorem aggregation_reorder_cex :
    ([evTieQueued, evTieDone]).Perm [evTieDone, evTieQueued]
    ∧ getWorkflowStatus none [evTieQueued, evTieDone] = [stTieQueued]
    ∧ getWorkflowStatus none [evTieDone, evTieQueued] = [stTieDone]
    ∧ stTieQueued ∈ getWorkflowStatus none [evTieQueued, evTieDone]
    ∧ stTieQueued ∉ getWorkflowStatus none [evTieDone, evTieQueued] :=
  ⟨List.Perm.swap evTieDone evTieQueued [], by decide, by decide, by decide, by decide⟩

/-- C4 (amended): permuting the input event list does not change the
resulting status set provided no two filter-matching events of the same
`workflow_id` carry equal `created_at` with different payloads
(tie-consistency); only `created_at` comparison then determines the
winner per `workflow_id`. -/
theorem aggregation_reorder_invariant :
    ∀ (f : Option String) (l1 l2 : List Event), l1.Perm l2 → tieConsistent f l1 →
      ∀ st, st ∈ getWorkflowStatus f l1 ↔ st ∈ getWorkflowStatus f l2 := by
  intro f l1 l2 hperm H st
  have H2 : tieConsistent f l2 := by
    intro e he eP heP
    exact H e (hperm.mem_iff.mpr he) eP (hperm.mem_iff.mpr heP)
  constructor
  · intro h
    rcases mem_getWorkflowStatus_maximal f l1 st h with ⟨wid, ⟨e, he, hc⟩, hmax⟩
    refine maximal_mem_getWorkflowStatus f l2 wid st H2 ⟨e, hperm.mem_iff.mp he, hc⟩ ?_
    intro eP heP stP hcP
    exact hmax eP (hperm.mem_iff.mpr heP) stP hcP
  · intro h
    rcases mem_getWorkflowStatus_maximal f l2 st h with ⟨wid, ⟨e, he, hc⟩, hmax⟩
    refine maximal_mem_getWorkflowStatus f l1 wid st H ⟨e, hperm.mem_iff.mpr he, hc⟩ ?_
    intro eP heP stP hcP
    exact hmax eP (hperm.mem_iff.mp heP) stP hcP

/-- C4 witness: reorder-invariance applied to the concrete two-event
distinct-timestamp run. -/
theorem aggregation_reorder_invariant_witness :
    stCi2 ∈ getWorkflowStatus none [evCi1, evCi2]
      ↔ stCi2 ∈ getWorkflowStatus none [evCi2, evCi1] :=
  aggregation_reorder_invariant none [evCi1, evCi2] [evCi2, evCi1]
    (List.Perm.swap evCi2 evCi1 []) (by decide) stCi2

/-! ## Name filtering -/

theorem candidate_filter_matches (f : String) (e : Event) (h : nameMatches f e = true) :
    candidate (some f) e = candidate none e := by
  rcases hw : e.workflow_run.workflow_id with _ | wid <;>
    rcases hn : e.workflow_run.name with _ | nm <;>
      rcases hca : e.workflow_run.created_at with _ | ca <;>
        simp_all [candidate, nameMatches, passesFilter]

theorem candidate_filter_skips (f : String) (e : Event) (hf : f ≠ "")
    (h : nameMatches f e = false) : candidate (some f) e = none := by
  have hfP : (f == "") = false := by
    simp [hf]
  rcases hw : e.workflow_run.workflow_id with _ | wid <;>
    rcases hn : e.workflow_run.name with _ | nm <;>
      rcases hca : e.workflow_run.created_at with _ | ca <;>
        simp_all [candidate, nameMatches, passesFilter]

theorem foldl_step_filterEq (f : String) (hf : f ≠ "") :
    ∀ (es : List Event) (m : List (Int × WorkflowStatus)),
      es.foldl (step (some f)) m
        = (es.filter (fun e => nameMatches f e)).foldl (step none) m
  | [], _ => rfl
  | e :: es, m => by
    by_cases hm : nameMatches f e = true
    · rw [List.foldl_cons, List.filter_cons_of_pos hm, List.foldl_cons]
      have hstep : step (some f) m e = step none m e := by
        rw [step, step, candidate_filter_matches f e hm]
      rw [hstep]
      exact foldl_step_filterEq f hf es (step none m e)
    · have hm2 : nameMatches f e = false := Bool.eq_false_iff.mpr hm
      rw [List.foldl_cons, List.filter_cons_of_neg (by simp [hm2])]
      have hstep : step (some f) m e = m := by
        rw [step, candidate_filter_skips f e hf hm2]
      rw [hstep]
      exact foldl_step_filterEq f hf es m

/-- C6: with a non-empty name filter the status view equals the
unfiltered view over the events whose name matches the filter
case-insensitively — non-matching events are skipped entirely and never
affect any entry, including the choice of latest `created_at`; and an
event named `Deploy` matches the filter `deploy`. -/
theorem name_filter_case_insensitive :
    (∀ (es : List Event) (f : String), f ≠ "" →
        getWorkflowStatus (some f) es
          = getWorkflowStatus none (es.filter (fun e => nameMatches f e)))
    ∧ nameMatches "deploy" evDeploy = true
    ∧ getWorkflowStatus (some "deploy") [evDeploy] = [stDeploy] := by
  refine ⟨?_, by decide, by decide⟩
  intro es f hf
  rw [getWorkflowStatus, getWorkflowStatus, aggregate, aggregate,
    foldl_step_filterEq f hf es []]

/-- C6 witness: the filter equivalence applied at the concrete filter
`deploy` over a mixed two-event feed. -/
theorem name_filter_case_insensitive_witness :
    getWorkflowStatus (some "deploy") [evDeploy, evCi1]
      = getWorkflowStatus none
          ([evDeploy, evCi1].filter (fun e => nameMatches "deploy" e)) :=
  name_filter_case_insensitive.1 [evDeploy, evCi1] "deploy" (by decide)

end PrAgent
